import Mathlib

/-!
Verification development for the `fresher` iterative build loop.

Each definition below is a shallow embedding of the corresponding Rust
function or type from the repository sources (`src/hooks.rs`,
`src/state.rs`, `src/verify.rs`, `src/impl_plan.rs`, `src/streaming.rs`,
`src/commands/build.rs`).  Machine integers are modelled as `Nat`/`Int`
(no arithmetic in the embedded code overflows; where a fixed width
matters, an explicit bound is carried).  Filesystem state is modelled as
explicit association lists of paths to documents, and documents as lists
of lines (Rust's `str::lines`).  Fallible operations return `Option`.
-/

set_option maxHeartbeats 1000000
set_option maxRecDepth 8192

namespace Fresher

/-! ## Hook runner (`src/hooks.rs`) -/

/-- HookResult from `src/hooks.rs`: result of executing a hook script. -/
inductive HookResult where
  | continue_ : HookResult
  | skip : HookResult
  | abort : HookResult
  | notFound : HookResult
  | timeout : HookResult
  | error : String → HookResult
  deriving DecidableEq, Repr

/-- Hook exit-code constants from `src/hooks.rs`. -/
def HOOK_CONTINUE : Int := 0

/-- Hook exit-code constant for skip. -/
def HOOK_SKIP : Int := 1

/-- Hook exit-code constant for abort. -/
def HOOK_ABORT : Int := 2

/-- Outcome of awaiting the hook child process with a timeout, as seen by
`run_hook`: the wrapped future either completes with a status (carrying an
exit code; `status.code()` returns `-1` via `unwrap_or` when the process
was killed by a signal), fails with a spawn/IO error, or times out. -/
inductive HookWaitOutcome where
  | completed : Int → HookWaitOutcome
  | ioError : String → HookWaitOutcome
  | timedOut : HookWaitOutcome
  deriving DecidableEq, Repr

/-- Exit-code mapping of `run_hook` (`src/hooks.rs` lines 78-90): the
match on the awaited outcome. -/
def runHookOutcome : HookWaitOutcome → HookResult
  | .completed code =>
      if code = HOOK_CONTINUE then .continue_
      else if code = HOOK_SKIP then .skip
      else if code = HOOK_ABORT then .abort
      else .error ("Hook exited with code " ++ toString code)
  | .ioError e => .error ("Failed to run hook: " ++ e)
  | .timedOut => .timeout

/-- C2: for a hook that ran to completion, `run_hook` maps raw exit code 0
to `Continue`, 1 to `Skip`, 2 to `Abort`, and any other code to `Error`
with a message ending in (hence containing) that code's decimal
representation; a timeout maps to `Timeout`, which is a constructor
distinct from every `Error`. -/
theorem hook_exit_code_mapping :
    (∀ code : Int,
      runHookOutcome (.completed code) =
        if code = 0 then HookResult.continue_
        else if code = 1 then HookResult.skip
        else if code = 2 then HookResult.abort
        else HookResult.error ("Hook exited with code " ++ toString code)) ∧
    runHookOutcome (.completed 99) =
      HookResult.error ("Hook exited with code " ++ toString (99 : Int)) ∧
    (∀ code : Int, code ≠ 0 → code ≠ 1 → code ≠ 2 →
      ∃ pre, runHookOutcome (.completed code) =
        HookResult.error (pre ++ toString code)) ∧
    runHookOutcome .timedOut = HookResult.timeout ∧
    (∀ msg, HookResult.timeout ≠ HookResult.error msg) := by
  refine ⟨fun code => rfl, by decide, fun code h0 h1 h2 => ?_, rfl, fun msg h => by cases h⟩
  refine ⟨"Hook exited with code ", ?_⟩
  simp [runHookOutcome, HOOK_CONTINUE, HOOK_SKIP, HOOK_ABORT, h0, h1, h2]

/-- Witness for `hook_exit_code_mapping`: its third conjunct applied at
the concrete exit code 99, hypotheses discharged by `decide`. -/
theorem hook_exit_code_mapping_witness :
    ∃ pre, runHookOutcome (.completed 99) = HookResult.error (pre ++ toString (99 : Int)) :=
  hook_exit_code_mapping.2.2.1 99 (by decide) (by decide) (by decide)

/-! ## Persisted state (`src/state.rs`) -/

/-- FinishType from `src/state.rs`. -/
inductive FinishType where
  | manual : FinishType
  | error : FinishType
  | maxIterations : FinishType
  | complete : FinishType
  | noChanges : FinishType
  deriving DecidableEq, Repr

/-- Display impl for FinishType (`src/state.rs` lines 31-41); serde's
snake_case rename produces the same strings. -/
def FinishType.str : FinishType → String
  | .manual => "manual"
  | .error => "error"
  | .maxIterations => "max_iterations"
  | .complete => "complete"
  | .noChanges => "no_changes"

/-- Inverse of the snake_case encoding, as performed by serde when
deserializing a `FinishType` field. -/
def FinishType.parse : String → Option FinishType
  | "manual" => some .manual
  | "error" => some .error
  | "max_iterations" => some .maxIterations
  | "complete" => some .complete
  | "no_changes" => some .noChanges
  | _ => none

/-- Model of `chrono::DateTime<Utc>`: an instant.  Chrono serializes it as
an RFC3339 string and parses it back losslessly; we carry the instant as
an abstract tick count and model that encoding as a dedicated
serialized-value constructor. -/
structure DateTime where
  ticks : Int
  deriving DecidableEq, Repr

/-- State from `src/state.rs` lines 8-19.  `u32` fields are `Nat`, `i32`
is `Int`, `u64` is `Nat`; the fixed widths are carried by `State.WF`. -/
structure State where
  iteration : Nat
  lastExitCode : Int
  lastCommitSha : Option String
  startedAt : DateTime
  totalCommits : Nat
  duration : Nat
  finishType : Option FinishType
  iterationStart : Option DateTime
  iterationSha : Option String
  deriving DecidableEq, Repr

/-- Width constraints of the Rust integer fields of `State`
(`iteration: u32`, `last_exit_code: i32`, `total_commits: u32`,
`duration: u64`). -/
def State.WF (s : State) : Prop :=
  s.iteration < 2 ^ 32 ∧ s.totalCommits < 2 ^ 32 ∧
    -2 ^ 31 ≤ s.lastExitCode ∧ s.lastExitCode < 2 ^ 31 ∧ s.duration < 2 ^ 64

/-- Default/new state (`src/state.rs` lines 43-57), with the
`started_at = Utc::now()` clock sample passed explicitly. -/
def State.new (now : DateTime) : State :=
  { iteration := 0, lastExitCode := 0, lastCommitSha := none, startedAt := now,
    totalCommits := 0, duration := 0, finishType := none, iterationStart := none,
    iterationSha := none }

/-- Environment variables derived from the state,
`State::to_env_vars` (`src/state.rs` lines 114-132). -/
def State.toEnvVars (s : State) : List (String × String) :=
  [("FRESHER_ITERATION", toString s.iteration),
   ("FRESHER_LAST_EXIT_CODE", toString s.lastExitCode),
   ("FRESHER_TOTAL_COMMITS", toString s.totalCommits),
   ("FRESHER_DURATION", toString s.duration),
   ("FRESHER_TOTAL_ITERATIONS", toString s.iteration)]
  ++ (match s.lastCommitSha with
      | some sha => [("FRESHER_LAST_COMMIT_SHA", sha)]
      | none => [])
  ++ (match s.finishType with
      | some f => [("FRESHER_FINISH_TYPE", f.str)]
      | none => [])

/-- Environment passed to a hook executable by `run_hook`
(`src/hooks.rs` lines 61-64): the state's variables plus the
project-directory and mode variables. -/
def hookEnv (s : State) (projectDir mode : String) : List (String × String) :=
  s.toEnvVars ++ [("FRESHER_PROJECT_DIR", projectDir), ("FRESHER_MODE", mode)]

/-- Claim C8 as stated: the hook receives variables literally named
`ITERATION`, `LAST_EXIT_CODE`, `TOTAL_COMMITS`, `DURATION`,
`TOTAL_ITERATIONS`, `PROJECT_DIR` and `MODE`. -/
def hookEnvNamesAsClaimed (s : State) (projectDir mode : String) : Prop :=
  ∀ n ∈ ["ITERATION", "LAST_EXIT_CODE", "TOTAL_COMMITS", "DURATION",
         "TOTAL_ITERATIONS", "PROJECT_DIR", "MODE"],
    n ∈ (hookEnv s projectDir mode).map Prod.fst

/-- Counterexample to C8 as stated: for the fresh state, the hook
environment contains no variable named `ITERATION` (every name carries
the `FRESHER_` prefix). -/
theorem hook_env_unprefixed_counterexample :
    ¬ hookEnvNamesAsClaimed (State.new ⟨0⟩) "/project" "building" ∧
      "FRESHER_ITERATION" ∈
        (hookEnv (State.new ⟨0⟩) "/project" "building").map Prod.fst := by
  constructor
  · intro h
    have := h "ITERATION" (by simp)
    revert this
    decide
  · decide

/-- C8 (amended: every variable name carries the `FRESHER_` prefix): each
hook invocation passes `FRESHER_ITERATION`, `FRESHER_LAST_EXIT_CODE`,
`FRESHER_TOTAL_COMMITS`, `FRESHER_DURATION` and `FRESHER_TOTAL_ITERATIONS`
with values derived from the state, plus `FRESHER_PROJECT_DIR` and
`FRESHER_MODE`; `FRESHER_LAST_COMMIT_SHA` is present exactly when the
last commit sha is set, and `FRESHER_FINISH_TYPE` exactly when the finish
type is set. -/
theorem hook_env_vars (s : State) (projectDir mode : String) :
    ("FRESHER_ITERATION", toString s.iteration) ∈ hookEnv s projectDir mode ∧
    ("FRESHER_LAST_EXIT_CODE", toString s.lastExitCode) ∈ hookEnv s projectDir mode ∧
    ("FRESHER_TOTAL_COMMITS", toString s.totalCommits) ∈ hookEnv s projectDir mode ∧
    ("FRESHER_DURATION", toString s.duration) ∈ hookEnv s projectDir mode ∧
    ("FRESHER_TOTAL_ITERATIONS", toString s.iteration) ∈ hookEnv s projectDir mode ∧
    ("FRESHER_PROJECT_DIR", projectDir) ∈ hookEnv s projectDir mode ∧
    ("FRESHER_MODE", mode) ∈ hookEnv s projectDir mode ∧
    ((∃ v, ("FRESHER_LAST_COMMIT_SHA", v) ∈ hookEnv s projectDir mode) ↔
      s.lastCommitSha.isSome) ∧
    ((∃ v, ("FRESHER_FINISH_TYPE", v) ∈ hookEnv s projectDir mode) ↔
      s.finishType.isSome) := by
  unfold hookEnv State.toEnvVars
  rcases s.lastCommitSha with _ | sha <;> rcases s.finishType with _ | f <;> simp_all

/-! ### Persisted representation (`State::save` / `State::load`,
`src/state.rs` lines 66-83)

`save` writes `toml::to_string_pretty(self)`; `load` reads it back with
`toml::from_str`.  All fields of `State` are scalar, so the persisted
representation is a flat table: an ordered list of key/value pairs, one
per present field, keys being the Rust field names.  TOML integers are
`i64` (the `toml` crate rejects a `u64` above `i64::MAX` when
serializing); strings are strings; a `chrono` datetime is serialized as
an RFC3339 string, which round-trips losslessly and is modelled as a
dedicated value constructor.  `Option` fields are omitted when `None`
and serde accepts a missing key for them. -/

/-- Scalar TOML value as used by the persisted `State` table. -/
inductive TomlValue where
  | int : Int → TomlValue
  | str : String → TomlValue
  | datetime : DateTime → TomlValue
  deriving DecidableEq, Repr

/-- Serialize a `State` to its flat TOML table, in declaration order,
omitting absent `Option` fields; fails (as `toml::to_string_pretty`
does) when the `u64` duration exceeds `i64::MAX`. -/
def serializeState (s : State) : Option (List (String × TomlValue)) :=
  if s.duration < 2 ^ 63 then
    some ([("iteration", TomlValue.int s.iteration),
           ("last_exit_code", TomlValue.int s.lastExitCode)]
      ++ (match s.lastCommitSha with
          | some v => [("last_commit_sha", TomlValue.str v)]
          | none => [])
      ++ [("started_at", TomlValue.datetime s.startedAt),
          ("total_commits", TomlValue.int s.totalCommits),
          ("duration", TomlValue.int s.duration)]
      ++ (match s.finishType with
          | some f => [("finish_type", TomlValue.str f.str)]
          | none => [])
      ++ (match s.iterationStart with
          | some d => [("iteration_start", TomlValue.datetime d)]
          | none => [])
      ++ (match s.iterationSha with
          | some v => [("iteration_sha", TomlValue.str v)]
          | none => []))
  else none

/-- First value bound to a key in the table. -/
def lookupKey (kvs : List (String × TomlValue)) (k : String) : Option TomlValue :=
  match kvs with
  | [] => none
  | (k', v) :: rest => if k' = k then some v else lookupKey rest k

/-- Deserializer check for a `u32` field: a non-negative integer below
`2 ^ 32` (written structurally on `Int` so that it computes). -/
def asU32 : TomlValue → Option Nat
  | .int (.ofNat m) => if m < 4294967296 then some m else none
  | _ => none

/-- Deserializer check for an `i32` field: an integer in
`[-2 ^ 31, 2 ^ 31)`. -/
def asI32 : TomlValue → Option Int
  | .int (.ofNat m) => if m < 2147483648 then some (.ofNat m) else none
  | .int (.negSucc m) => if m < 2147483648 then some (.negSucc m) else none
  | _ => none

/-- Deserializer check for a `u64` field (a TOML integer is at most
`i64::MAX`, so only non-negativity is checked). -/
def asU64 : TomlValue → Option Nat
  | .int (.ofNat m) => some m
  | _ => none

/-- Deserializer check for a string field. -/
def asStr : TomlValue → Option String
  | .str v => some v
  | _ => none

/-- Deserializer check for a datetime field. -/
def asDatetime : TomlValue → Option DateTime
  | .datetime d => some d
  | _ => none

/-- Optional field: a missing key is `None`; a present key must parse. -/
def optField (kvs : List (String × TomlValue)) (k : String)
    (f : TomlValue → Option α) : Option (Option α) :=
  match lookupKey kvs k with
  | none => some none
  | some v => (f v).map some

/-- Deserialize the flat TOML table back into a `State`
(serde derive: every non-`Option` field required, `Option` fields
defaulting to `None` when their key is absent). -/
def deserializeState (kvs : List (String × TomlValue)) : Option State := do
  let iteration ← lookupKey kvs "iteration" >>= asU32
  let lastExitCode ← lookupKey kvs "last_exit_code" >>= asI32
  let lastCommitSha ← optField kvs "last_commit_sha" asStr
  let startedAt ← lookupKey kvs "started_at" >>= asDatetime
  let totalCommits ← lookupKey kvs "total_commits" >>= asU32
  let duration ← lookupKey kvs "duration" >>= asU64
  let finishType ← optField kvs "finish_type" (fun v => asStr v >>= FinishType.parse)
  let iterationStart ← optField kvs "iteration_start" asDatetime
  let iterationSha ← optField kvs "iteration_sha" asStr
  pure { iteration, lastExitCode, lastCommitSha, startedAt, totalCommits,
         duration, finishType, iterationStart, iterationSha }

/-- Round trip of the snake_case `FinishType` encoding. -/
theorem finishType_roundtrip (f : FinishType) : FinishType.parse f.str = some f := by
  cases f <;> rfl

/-- Round trip of a `u32` value through a TOML integer. -/
theorem asU32_int (n : Nat) (h : n < 2 ^ 32) : asU32 (.int n) = some n := by
  show (if n < 4294967296 then some n else none) = some n
  rw [if_pos (by omega)]

/-- Round trip of an `i32` value through a TOML integer. -/
theorem asI32_int (n : Int) (hlo : -2 ^ 31 ≤ n) (hhi : n < 2 ^ 31) :
    asI32 (.int n) = some n := by
  cases n with
  | ofNat m =>
      rw [Int.ofNat_eq_natCast] at hhi
      show (if m < 2147483648 then some (Int.ofNat m) else none) = some (Int.ofNat m)
      rw [if_pos (by omega)]
  | negSucc m =>
      rw [Int.negSucc_eq] at hlo
      show (if m < 2147483648 then some (Int.negSucc m) else none) = some (Int.negSucc m)
      rw [if_pos (by omega)]

/-- Round trip of a `u64` value (within TOML's integer range) through a
TOML integer. -/
theorem asU64_int (n : Nat) : asU64 (.int n) = some n := rfl

/-- C7: serializing a well-formed `State` record (any combination of
present/absent optional fields) to the persisted representation and
deserializing it back yields the original record. -/
theorem state_roundtrip (s : State) (hwf : s.WF) (kvs : List (String × TomlValue))
    (hser : serializeState s = some kvs) : deserializeState kvs = some s := by
  obtain ⟨h1, h2, h3, h4, h5⟩ := hwf
  unfold serializeState at hser
  split at hser
  case isFalse => exact absurd hser (by simp)
  case isTrue hdur =>
    obtain ⟨it, ec, sha, st, tc, du, ft, istart, isha⟩ := s
    simp only [Option.some.injEq] at hser
    subst hser
    simp only at h1 h2 h3 h4 h5 hdur
    rcases sha with _ | v1 <;> rcases ft with _ | v2 <;>
      rcases istart with _ | v3 <;> rcases isha with _ | v4 <;>
      simp [deserializeState, lookupKey, optField, asStr, asDatetime,
            finishType_roundtrip, asU32_int it h1, asU32_int tc h2,
            asI32_int ec h3 h4, asU64_int du]

/-- Concrete state exercising a mix of present and absent optional
fields, used as the round-trip witness input. -/
def exampleState : State :=
  { iteration := 3, lastExitCode := 0, lastCommitSha := some "abc123",
    startedAt := ⟨17⟩, totalCommits := 2, duration := 7,
    finishType := some .complete, iterationStart := some ⟨21⟩,
    iterationSha := none }

/-- Witness for `state_roundtrip`: `exampleState`, serialized concretely,
deserializes back to itself. -/
theorem state_roundtrip_witness :
    ∃ kvs, serializeState exampleState = some kvs ∧
      deserializeState kvs = some exampleState := by
  refine ⟨_, rfl, state_roundtrip _ ?_ _ rfl⟩
  refine ⟨?_, ?_, ?_, ?_, ?_⟩ <;> norm_num [exampleState]

/-! ## Iteration engine (`src/commands/build.rs`) -/

/-- Signal derived from the `next_iteration` hook result by
`run_next_iteration_hook` (`src/hooks.rs` lines 115-136): the pair
`(should_continue, should_skip_iteration)`.  `Timeout` and `Error` warn
and continue. -/
def nextIterationSignal : HookResult → Bool × Bool
  | .continue_ => (true, false)
  | .notFound => (true, false)
  | .skip => (true, true)
  | .abort => (false, false)
  | .timeout => (true, false)
  | .error _ => (true, false)

/-- Configuration read by the build loop. -/
structure EngineConfig where
  maxIterations : Nat
  smartTermination : Bool

/-- Environment of one pass through the loop body of `run`
(`src/commands/build.rs` lines 80-165): the interrupt flag at the top of
the body, the pending-work check, the revision snapshots before and
after the worker, the `next_iteration` hook result, the worker exit
code, and the commit count since the starting revision. -/
structure IterInput where
  interrupt : Bool
  hasPending : Bool
  shaBefore : Option String
  hook : HookResult
  exitCode : Int
  commits : Nat
  shaAfter : Option String

/-- Outcome of one pass through the loop body: the loop breaks with a
finish type, restarts without working (hook `Skip`), or repeats. -/
inductive StepOutcome where
  | finished : FinishType → StepOutcome
  | skipped : StepOutcome
  | looped : StepOutcome
  deriving DecidableEq, Repr

/-- One pass through the loop body of `run` (`src/commands/build.rs`
lines 80-165), with `iteration` the value of `state.iteration` at the
top of the body (before `start_iteration` increments it).  The smart
termination check compares `get_current_sha()` after the worker with
`state.iteration_sha`, which `start_iteration` set to the pre-worker
snapshot. -/
def buildStep (cfg : EngineConfig) (iteration : Nat) (inp : IterInput) : StepOutcome :=
  if inp.interrupt then .finished .manual
  else if 0 < cfg.maxIterations ∧ cfg.maxIterations ≤ iteration then .finished .maxIterations
  else if inp.hasPending = false then .finished .complete
  else
    let sig := nextIterationSignal inp.hook
    if sig.1 = false then .finished .manual
    else if sig.2 = true then .skipped
    else if inp.exitCode ≠ 0 then .finished .error
    else if cfg.smartTermination = true ∧ inp.shaAfter = inp.shaBefore ∧ inp.commits = 0 then
      .finished .noChanges
    else .looped

/-- C1: the termination checks of one loop pass fire in the specified
order with the matching finish type: interrupt gives `Manual`; otherwise
a positive iteration ceiling that has been reached gives `MaxIterations`
(a ceiling of `0` never does); otherwise no pending work gives
`Complete`; after the worker runs — the `next_iteration` hook signalled
`(should_continue, should_skip) = (true, false)`, which is what
`Continue`, `NotFound`, `Timeout` and `Error` all yield — a non-zero
exit code gives `Error`; otherwise smart termination with an unchanged
revision and zero commits gives `NoChanges`; otherwise the loop
repeats. -/
theorem build_step_order (cfg : EngineConfig) (iteration : Nat) (inp : IterInput) :
    (inp.interrupt = true → buildStep cfg iteration inp = .finished .manual) ∧
    (inp.interrupt = false → 0 < cfg.maxIterations → cfg.maxIterations ≤ iteration →
      buildStep cfg iteration inp = .finished .maxIterations) ∧
    (cfg.maxIterations = 0 → buildStep cfg iteration inp ≠ .finished .maxIterations) ∧
    (inp.interrupt = false → ¬(0 < cfg.maxIterations ∧ cfg.maxIterations ≤ iteration) →
      inp.hasPending = false → buildStep cfg iteration inp = .finished .complete) ∧
    (inp.interrupt = false → ¬(0 < cfg.maxIterations ∧ cfg.maxIterations ≤ iteration) →
      inp.hasPending = true → nextIterationSignal inp.hook = (true, false) →
      inp.exitCode ≠ 0 →
      buildStep cfg iteration inp = .finished .error) ∧
    (inp.interrupt = false → ¬(0 < cfg.maxIterations ∧ cfg.maxIterations ≤ iteration) →
      inp.hasPending = true → nextIterationSignal inp.hook = (true, false) →
      inp.exitCode = 0 →
      cfg.smartTermination = true → inp.shaAfter = inp.shaBefore → inp.commits = 0 →
      buildStep cfg iteration inp = .finished .noChanges) ∧
    (inp.interrupt = false → ¬(0 < cfg.maxIterations ∧ cfg.maxIterations ≤ iteration) →
      inp.hasPending = true → nextIterationSignal inp.hook = (true, false) →
      inp.exitCode = 0 →
      ¬(cfg.smartTermination = true ∧ inp.shaAfter = inp.shaBefore ∧ inp.commits = 0) →
      buildStep cfg iteration inp = .looped) := by
  refine ⟨fun h => by simp [buildStep, h], ?_, ?_, ?_, ?_, ?_, ?_⟩
  · intro h hpos hle
    simp [buildStep, h, hpos, hle]
  · intro h0
    unfold buildStep
    split
    · simp
    · split
      · omega
      · split
        · simp
        · dsimp only
          split
          · simp
          · split
            · simp
            · split
              · simp
              · split <;> simp
  · intro h hm hp
    simp [buildStep, h, hm, hp]
  · intro h hm hp hh he
    simp [buildStep, h, hm, hp, hh, he]
  · intro h hm hp hh he hs hsha hc
    simp [buildStep, h, hm, hp, hh, he, hs, hsha, hc]
  · intro h hm hp hh he hns
    simp [buildStep, h, hm, hp, hh, he, hns]

/-- Witness for `build_step_order`: its fifth conjunct at a concrete pass
with no `next_iteration` hook installed (`NotFound`, the default) whose
worker exited with code 1 while the earlier checks do not fire,
finishing the loop as `Error`. -/
theorem build_step_order_witness :
    buildStep ⟨0, true⟩ 0
      ⟨false, true, some "a", .notFound, 1, 0, some "a"⟩ = .finished .error :=
  (build_step_order ⟨0, true⟩ 0 ⟨false, true, some "a", .notFound, 1, 0, some "a"⟩).2.2.2.2.1
    rfl (by simp) rfl rfl (by decide)

/-! ## Stream classifier (`src/streaming.rs`)

JSON values moved around without being inspected (`serde_json::Value`
payloads, `f64` cost figures) are carried as uninterpreted data: a
`JsonBits`/`FloatBits` value is only copied, never computed with. -/

/-- Uninterpreted `serde_json::Value` payload. -/
structure JsonBits where
  bits : Nat
  deriving DecidableEq, Repr

/-- Uninterpreted `f64` payload (`cost_usd`); `process_stream` only
copies it. -/
structure FloatBits where
  bits : Nat
  deriving DecidableEq, Repr

/-- ContentBlock from `src/streaming.rs` lines 54-59. -/
inductive ContentBlock where
  | text : String → ContentBlock
  | toolUse : String → String → JsonBits → ContentBlock
  | other : ContentBlock
  deriving DecidableEq, Repr

/-- UserContentBlock from `src/streaming.rs` lines 76-80. -/
inductive UserContentBlock where
  | toolResult : String → String → UserContentBlock
  | other : UserContentBlock
  deriving DecidableEq, Repr

/-- Delta from `src/streaming.rs` lines 101-106. -/
inductive Delta where
  | textDelta : String → Delta
  | inputJsonDelta : String → Delta
  | other : Delta
  deriving DecidableEq, Repr

/-- ResultEvent from `src/streaming.rs` lines 116-127. -/
structure ResultEvent where
  subtype : Option String
  isError : Option Bool
  durationMs : Option Nat
  durationApiMs : Option Nat
  numTurns : Option Nat
  result : Option String
  costUsd : Option FloatBits
  sessionId : Option String
  deriving DecidableEq, Repr

/-- StreamEvent from `src/streaming.rs` lines 11-29: the closed union
over the `type` tag, with `Unknown` for every unrecognized tag. -/
inductive StreamEvent where
  | system : Option String → Option String → JsonBits → StreamEvent
  | assistant : Option (List ContentBlock) → JsonBits → StreamEvent
  | user : Option (List UserContentBlock) → JsonBits → StreamEvent
  | contentBlockStart : Option Nat → Option ContentBlock → JsonBits → StreamEvent
  | contentBlockDelta : Option Nat → Option Delta → JsonBits → StreamEvent
  | contentBlockStop : Option Nat → JsonBits → StreamEvent
  | result : ResultEvent → StreamEvent
  | unknown : StreamEvent
  deriving DecidableEq, Repr

/-- One input line of the stream as seen by the loop of `process_stream`
(`src/streaming.rs` lines 333-364): after trimming it is either blank
(skipped), a line `parse_event` rejects (line 358: logged and skipped),
or a line parsed to a `StreamEvent`.  The JSON parsing itself is
performed by `serde_json`, outside this codebase; each line is modelled
by its parse outcome. -/
inductive RawLine where
  | blank : RawLine
  | malformed : RawLine
  | event : StreamEvent → RawLine
  deriving DecidableEq, Repr

/-- ProcessResult from `src/streaming.rs` lines 314-322 (its `Default`:
exit code 0, empty optionals, `is_error = false`). -/
structure ProcessResult where
  exitCode : Int
  durationMs : Option Nat
  costUsd : Option FloatBits
  numTurns : Option Nat
  isError : Bool
  resultText : Option String
  deriving DecidableEq, Repr

/-- Default `ProcessResult`. -/
def ProcessResult.defaultResult : ProcessResult :=
  { exitCode := 0, durationMs := none, costUsd := none, numTurns := none,
    isError := false, resultText := none }

/-- Overwrite of the summary fields performed for a `Result` event
(`src/streaming.rs` lines 350-356); `is_error` uses `unwrap_or(false)`. -/
def applyResult (acc : ProcessResult) (e : ResultEvent) : ProcessResult :=
  { acc with
    durationMs := e.durationMs
    costUsd := e.costUsd
    numTurns := e.numTurns
    isError := e.isError.getD false
    resultText := e.result }

/-- Body of the read loop of `process_stream` for one line
(`src/streaming.rs` lines 333-364): blank lines and malformed lines
leave the summary unchanged (the handler side channel does not touch
it); a `Result` event overwrites the summary fields. -/
def processLine (acc : ProcessResult) : RawLine → ProcessResult
  | .blank => acc
  | .malformed => acc
  | .event (.result e) => applyResult acc e
  | .event _ => acc

/-- `process_stream` (`src/streaming.rs` lines 325-368): fold the read
loop over the whole line sequence, starting from the default summary. -/
def processStream (lines : List RawLine) : ProcessResult :=
  lines.foldl processLine ProcessResult.defaultResult

/-- Result events of a line sequence, in order. -/
def resultEvents (lines : List RawLine) : List ResultEvent :=
  lines.filterMap fun l =>
    match l with
    | .event (.result e) => some e
    | _ => none

/-- Folding `processLine` from any accumulator is folding `applyResult`
over just the `Result` events. -/
theorem foldl_processLine_eq (lines : List RawLine) (acc : ProcessResult) :
    lines.foldl processLine acc = (resultEvents lines).foldl applyResult acc := by
  induction lines generalizing acc with
  | nil => rfl
  | cons l rest ih =>
      cases l with
      | blank => simpa [resultEvents, processLine] using ih acc
      | malformed => simpa [resultEvents, processLine] using ih acc
      | event e =>
          cases e <;> simp [resultEvents, processLine, applyResult, ih]

/-- Two successive overwrites keep only the second (the exit code is
never touched by the stream loop). -/
theorem applyResult_applyResult (acc : ProcessResult) (e e' : ResultEvent) :
    applyResult (applyResult acc e) e' = applyResult acc e' := rfl

/-- Folding overwrites keeps only the last one. -/
theorem foldl_applyResult_last (es : List ResultEvent) (acc : ProcessResult) :
    es.foldl applyResult acc =
      match es.getLast? with
      | none => acc
      | some e => applyResult acc e := by
  induction es generalizing acc with
  | nil => rfl
  | cons e rest ih =>
      cases rest with
      | nil => rfl
      | cons e' rest' =>
          rw [List.foldl_cons, ih (applyResult acc e), List.getLast?_cons_cons]
          cases h : (e' :: rest').getLast? with
          | none => simp at h
          | some x => simp [applyResult_applyResult]

/-- C6: a malformed line never aborts processing — dropping it from any
position leaves the run summary of the remaining lines unchanged — and
the summary equals the default record overwritten by the `Result`
events in order, so its duration, cost, turn count, error flag and
result text come from the last `Result` event (the default values when
there is none). -/
theorem process_stream_malformed_and_result (xs ys : List RawLine) :
    processStream (xs ++ RawLine.malformed :: ys) = processStream (xs ++ ys) ∧
    (∀ lines : List RawLine,
      processStream lines =
        match (resultEvents lines).getLast? with
        | none => ProcessResult.defaultResult
        | some e => applyResult ProcessResult.defaultResult e) := by
  constructor
  · unfold processStream
    rw [List.foldl_append, List.foldl_append, List.foldl_cons]
    rfl
  · intro lines
    rw [processStream, foldl_processLine_eq, foldl_applyResult_last]

/-! ## Markdown checkbox and header matchers

The plan scanners share a handful of anchored regular expressions.  A
line is a list of characters (the output of Rust's `str::lines`, so it
contains no newline).  The patterns are simple enough that greedy
scanning is exact: in `^\s*-\s*\[.\]` every character class following a
`\s*` is disjoint from whitespace, so the greedy `dropWhile` matches the
regex engine's behaviour.  `\s` is modelled by the ASCII whitespace
characters (the documents involved are ASCII where it matters). -/

/-- Whitespace class `\s`. -/
def isWsChar (c : Char) : Bool :=
  c = ' ' || c = '\t' || c = '\n' || c = '\r' ||
    c = Char.ofNat 11 || c = Char.ofNat 12

/-- Mark character of a checkbox line: the `c` of `^\s*-\s*\[c\]`, when
the line has that shape. -/
def checkboxMark (cs : List Char) : Option Char :=
  match cs.dropWhile isWsChar with
  | '-' :: rest =>
      match rest.dropWhile isWsChar with
      | '[' :: c :: ']' :: _ => some c
      | _ => none
  | _ => none

/-- Pending checkbox `^\s*-\s*\[\s\]` (regexes `checkbox_pending` in
`src/impl_plan.rs` line 175 and `src/verify.rs` lines 196, 243). -/
def isPendingLine (cs : List Char) : Bool :=
  match checkboxMark cs with
  | some c => isWsChar c
  | none => false

/-- Complete checkbox `^\s*-\s*\[[xX]\]` (`checkbox_complete`,
`src/impl_plan.rs` line 176). -/
def isCompleteLine (cs : List Char) : Bool :=
  match checkboxMark cs with
  | some c => c = 'x' || c = 'X'
  | none => false

/-- In-progress checkbox `^\s*-\s*\[~\]` (`checkbox_in_progress`,
`src/impl_plan.rs` line 177). -/
def isInProgressLine (cs : List Char) : Bool :=
  match checkboxMark cs with
  | some c => c = '~'
  | none => false

/-- At most one of the three checkbox classes matches a line: the mark
character classes (`\\s`, `[xX]`, `~`) are pairwise disjoint. -/
theorem checkbox_classes_disjoint (cs : List Char) :
    (isPendingLine cs = true → isCompleteLine cs = false ∧ isInProgressLine cs = false) ∧
    (isCompleteLine cs = true → isInProgressLine cs = false) := by
  unfold isPendingLine isCompleteLine isInProgressLine
  cases h : checkboxMark cs with
  | none => simp
  | some c =>
      simp only [isWsChar, Bool.or_eq_true, decide_eq_true_eq]
      constructor
      · rintro (((((rfl | rfl) | rfl) | rfl) | rfl) | rfl) <;> exact ⟨by decide, by decide⟩
      · rintro (rfl | rfl) <;> decide

/-! ## Feature files (`src/impl_plan.rs`) -/

/-- FeatureState from `src/impl_plan.rs` lines 15-20. -/
inductive FeatureState where
  | pending : FeatureState
  | inProgress : FeatureState
  | complete : FeatureState
  | archived : FeatureState
  deriving DecidableEq, Repr

/-- FeatureStatus from `src/impl_plan.rs` lines 35-43.  The `file` path
and the `spec_ref` capture (a regex capture carried as metadata) are
not involved in any proof here and are left out of the record. -/
structure FeatureStatus where
  name : String
  status : FeatureState
  totalTasks : Nat
  completedTasks : Nat
  pendingTasks : Nat
  deriving DecidableEq, Repr

/-- Counting loop of `parse_feature_file` (`src/impl_plan.rs` lines
185-199): one pass over the lines, an `else if` chain classifying each
line as pending, complete, or in-progress. -/
def featureCounts (lines : List (List Char)) : Nat × Nat × Nat :=
  lines.foldl
    (fun acc line =>
      if isPendingLine line then (acc.1 + 1, acc.2.1, acc.2.2)
      else if isCompleteLine line then (acc.1, acc.2.1 + 1, acc.2.2)
      else if isInProgressLine line then (acc.1, acc.2.1, acc.2.2 + 1)
      else acc)
    (0, 0, 0)

/-- Status computation of `parse_feature_file` (`src/impl_plan.rs`
lines 203-209) from the `(pending, completed, in_progress)` counts:
`completed == total && total > 0` gives Complete, else any completed or
in-progress gives InProgress, else Pending. -/
def statusOf (p c i : Nat) : FeatureState :=
  if c = p + c + i ∧ 0 < p + c + i then FeatureState.complete
  else if 0 < c ∨ 0 < i then FeatureState.inProgress
  else FeatureState.pending

/-- `parse_feature_file` (`src/impl_plan.rs` lines 166-220): derive the
counts and the computed status.  `total = pending + completed +
in_progress`, `pending_tasks = pending + in_progress`. -/
def parseFeatureFile (name : String) (lines : List (List Char)) : FeatureStatus :=
  let counts := featureCounts lines
  { name := name, status := statusOf counts.1 counts.2.1 counts.2.2,
    totalTasks := counts.1 + counts.2.1 + counts.2.2,
    completedTasks := counts.2.1, pendingTasks := counts.1 + counts.2.2 }

/-- Characterization of the Complete status. -/
theorem statusOf_complete_iff (p c i : Nat) :
    statusOf p c i = FeatureState.complete ↔ (0 < p + c + i ∧ c = p + c + i) := by
  unfold statusOf
  split_ifs with h1 h2
  · exact iff_of_true rfl ⟨h1.2, h1.1⟩
  · exact iff_of_false (by simp) fun hcon => h1 ⟨hcon.2, hcon.1⟩
  · exact iff_of_false (by simp) fun hcon => h1 ⟨hcon.2, hcon.1⟩

/-- Characterization of the InProgress status below Complete. -/
theorem statusOf_inProgress_iff (p c i : Nat)
    (h : statusOf p c i ≠ FeatureState.complete) :
    statusOf p c i = FeatureState.inProgress ↔ (0 < c ∨ 0 < i) := by
  unfold statusOf at h ⊢
  split_ifs at h ⊢ with h1 h2
  · exact absurd rfl h
  · exact iff_of_true rfl h2
  · exact iff_of_false (by simp) h2

/-- Characterization of the Pending status below Complete. -/
theorem statusOf_pending_iff (p c i : Nat)
    (h : statusOf p c i ≠ FeatureState.complete) :
    statusOf p c i = FeatureState.pending ↔ ¬(0 < c ∨ 0 < i) := by
  unfold statusOf at h ⊢
  split_ifs at h ⊢ with h1 h2
  · exact absurd rfl h
  · exact iff_of_false (by simp) fun hcon => hcon h2
  · exact iff_of_true rfl h2

/-- Effective complete classification of the `else if` chain. -/
def countedComplete (l : List Char) : Bool := !isPendingLine l && isCompleteLine l

/-- Effective in-progress classification of the `else if` chain. -/
def countedInProgress (l : List Char) : Bool :=
  !isPendingLine l && !isCompleteLine l && isInProgressLine l

/-- The fold computes the three `countP`s of the effective predicates. -/
theorem featureCounts_eq_countP (lines : List (List Char)) :
    featureCounts lines =
      (lines.countP isPendingLine, lines.countP countedComplete,
        lines.countP countedInProgress) := by
  suffices h : ∀ acc : Nat × Nat × Nat,
      lines.foldl
        (fun acc line =>
          if isPendingLine line then (acc.1 + 1, acc.2.1, acc.2.2)
          else if isCompleteLine line then (acc.1, acc.2.1 + 1, acc.2.2)
          else if isInProgressLine line then (acc.1, acc.2.1, acc.2.2 + 1)
          else acc)
        acc =
      (acc.1 + lines.countP isPendingLine, acc.2.1 + lines.countP countedComplete,
        acc.2.2 + lines.countP countedInProgress) by
    simpa [featureCounts] using h (0, 0, 0)
  induction lines with
  | nil => simp
  | cons l rest ih =>
      intro acc
      by_cases hp : isPendingLine l <;> by_cases hc : isCompleteLine l <;>
        by_cases hi : isInProgressLine l <;>
        simp [List.countP_cons, countedComplete, countedInProgress, hp, hc, hi, ih,
              Nat.add_comm, Nat.add_assoc, Nat.add_left_comm]

/-- A checkbox line is counted as completed or in-progress by the
`else if` chain exactly when it matches the complete or in-progress
pattern (disjointness of the mark classes). -/
theorem countedAny_iff (l : List Char) :
    (countedComplete l = true ∨ countedInProgress l = true) ↔
      (isCompleteLine l = true ∨ isInProgressLine l = true) := by
  simp only [countedComplete, countedInProgress, Bool.and_eq_true, Bool.not_eq_true',
    Bool.not_eq_true]
  constructor
  · rintro (⟨_, h⟩ | ⟨⟨_, _⟩, h⟩)
    · exact Or.inl h
    · exact Or.inr h
  · rintro (h | h)
    · have hnp : isPendingLine l = false := by
        by_contra hcon
        have := ((checkbox_classes_disjoint l).1 (by simpa using hcon)).1
        simp [h] at this
      exact Or.inl ⟨hnp, h⟩
    · by_cases hc : isCompleteLine l = true
      · have hnp : isPendingLine l = false := by
          by_contra hcon
          have := ((checkbox_classes_disjoint l).1 (by simpa using hcon)).1
          simp [hc] at this
        exact Or.inl ⟨hnp, hc⟩
      · have hnp : isPendingLine l = false := by
          by_contra hcon
          have := ((checkbox_classes_disjoint l).1 (by simpa using hcon)).2
          simp [h] at this
        exact Or.inr ⟨⟨hnp, by simpa using hc⟩, h⟩

/-- C4: for every parsed feature document, `completed_tasks +
pending_tasks = total_tasks`; the status is `Complete` exactly when the
document has tasks and all are completed; and a non-`Complete` status is
`InProgress` exactly when some line is a completed or in-progress
checkbox, `Pending` otherwise. -/
theorem feature_status_invariant (name : String) (lines : List (List Char)) :
    (parseFeatureFile name lines).completedTasks +
        (parseFeatureFile name lines).pendingTasks =
      (parseFeatureFile name lines).totalTasks ∧
    ((parseFeatureFile name lines).status = FeatureState.complete ↔
      0 < (parseFeatureFile name lines).totalTasks ∧
        (parseFeatureFile name lines).completedTasks =
          (parseFeatureFile name lines).totalTasks) ∧
    ((parseFeatureFile name lines).status ≠ FeatureState.complete →
      ((parseFeatureFile name lines).status = FeatureState.inProgress ↔
        ∃ l ∈ lines, isCompleteLine l = true ∨ isInProgressLine l = true)) ∧
    ((parseFeatureFile name lines).status ≠ FeatureState.complete →
      ((parseFeatureFile name lines).status = FeatureState.pending ↔
        ¬∃ l ∈ lines, isCompleteLine l = true ∨ isInProgressLine l = true)) := by
  have hex : (0 < lines.countP countedComplete ∨ 0 < lines.countP countedInProgress) ↔
      ∃ l ∈ lines, isCompleteLine l = true ∨ isInProgressLine l = true := by
    rw [List.countP_pos_iff, List.countP_pos_iff]
    constructor
    · rintro (⟨l, hl, h⟩ | ⟨l, hl, h⟩)
      · exact ⟨l, hl, ((countedAny_iff l).1 (Or.inl h))⟩
      · exact ⟨l, hl, ((countedAny_iff l).1 (Or.inr h))⟩
    · rintro ⟨l, hl, h⟩
      rcases (countedAny_iff l).2 h with h' | h'
      · exact Or.inl ⟨l, hl, h'⟩
      · exact Or.inr ⟨l, hl, h'⟩
  simp only [parseFeatureFile, featureCounts_eq_countP]
  refine ⟨by omega, ?_, ?_, ?_⟩
  · rw [statusOf_complete_iff]
  · intro hne
    rw [statusOf_inProgress_iff _ _ _ hne, ← hex]
  · intro hne
    rw [statusOf_pending_iff _ _ _ hne, ← hex]

/-- Witness for `feature_status_invariant`: a two-line document (one
completed checkbox, one pending) is `InProgress` via the theorem's third
conjunct. -/
theorem feature_status_invariant_witness :
    (parseFeatureFile "auth"
        [("- [x] Implement login".toList), ("- [ ] Add logout".toList)]).status =
      FeatureState.inProgress := by
  have h := (feature_status_invariant "auth"
    [("- [x] Implement login".toList), ("- [ ] Add logout".toList)]).2.2.1
  refine ((h (by decide)).2 ?_)
  exact ⟨("- [x] Implement login".toList), by simp, Or.inl (by decide)⟩

/-! ## Focus selection (`ImplIndex::select_next_focus`,
`src/impl_plan.rs` lines 143-162)

`ImplIndex::load` sorts the feature list by name (line 103), so "first
in the list" below is "first in sorted-name order" for every loaded
index. -/

/-- First feature with in-progress status
(`self.features.iter().find(..)`, lines 149-152). -/
def findInProgressFeature (fs : List FeatureStatus) : Option FeatureStatus :=
  fs.find? fun f => f.status == FeatureState.inProgress

/-- Fold of Rust's `Iterator::min_by_key` over a non-empty prefix: keep
the accumulator on ties, so the first minimum wins. -/
def foldMinPending (f : FeatureStatus) (fs : List FeatureStatus) : FeatureStatus :=
  fs.foldl (fun acc g => if g.pendingTasks < acc.pendingTasks then g else acc) f

/-- `min_by_key(|f| f.pending_tasks)`: `none` on an empty iterator,
first minimum otherwise. -/
def minByPending : List FeatureStatus → Option FeatureStatus
  | [] => none
  | f :: fs => some (foldMinPending f fs)

/-- `select_next_focus` (`src/impl_plan.rs` lines 143-162): the first
in-progress feature, else the feature with the fewest pending tasks
among those with pending tasks. -/
def selectNextFocus (fs : List FeatureStatus) : Option FeatureStatus :=
  match findInProgressFeature fs with
  | some f => some f
  | none => minByPending (fs.filter fun f => decide (0 < f.pendingTasks))

/-- The `min_by_key` fold returns an element of the list, minimal for
`pendingTasks`, and in the earliest position attaining the minimum
(every earlier element is strictly larger). -/
theorem foldMinPending_spec (fs : List FeatureStatus) (f : FeatureStatus) :
    (foldMinPending f fs = f ∨ foldMinPending f fs ∈ fs) ∧
    (foldMinPending f fs).pendingTasks ≤ f.pendingTasks ∧
    (∀ g ∈ fs, (foldMinPending f fs).pendingTasks ≤ g.pendingTasks) ∧
    ∃ l1 l2, f :: fs = l1 ++ foldMinPending f fs :: l2 ∧
      ∀ g ∈ l1, (foldMinPending f fs).pendingTasks < g.pendingTasks := by
  induction fs generalizing f with
  | nil =>
      exact ⟨Or.inl rfl, le_refl _, by simp, [], [], by simp [foldMinPending], by simp⟩
  | cons g rest ih =>
      have hstep : foldMinPending f (g :: rest) =
          foldMinPending (if g.pendingTasks < f.pendingTasks then g else f) rest := by
        simp [foldMinPending]
      by_cases hgf : g.pendingTasks < f.pendingTasks
      · rw [hstep, if_pos hgf]
        obtain ⟨hmem, hle, hall, l1, l2, hsplit, hpre⟩ := ih g
        refine ⟨?_, ?_, ?_, f :: l1, l2, ?_, ?_⟩
        · rcases hmem with h | h
          · exact Or.inr (by simp [h])
          · exact Or.inr (by simp [h])
        · exact le_trans hle (le_of_lt hgf)
        · intro x hx
          rcases List.mem_cons.mp hx with rfl | hx
          · exact hle
          · exact hall x hx
        · simpa using congrArg (f :: ·) hsplit
        · intro x hx
          rcases List.mem_cons.mp hx with rfl | hx
          · exact lt_of_le_of_lt hle hgf
          · exact hpre x hx
      · rw [hstep, if_neg hgf]
        push_neg at hgf
        obtain ⟨hmem, hle, hall, l1, l2, hsplit, hpre⟩ := ih f
        refine ⟨?_, hle, ?_, ?_⟩
        · rcases hmem with h | h
          · exact Or.inl h
          · exact Or.inr (by simp [h])
        · intro x hx
          rcases List.mem_cons.mp hx with rfl | hx
          · exact le_trans hle hgf
          · exact hall x hx
        · cases l1 with
          | nil =>
              simp only [List.nil_append, List.cons.injEq] at hsplit
              exact ⟨[], g :: rest, by simp [← hsplit.1], by simp⟩
          | cons f' l1' =>
              simp only [List.cons_append, List.cons.injEq] at hsplit
              obtain ⟨rfl, hrest⟩ := hsplit
              refine ⟨f :: g :: l1', l2,
                by rw [List.cons_append, List.cons_append, ← hrest], ?_⟩
              intro x hx
              have hf : (foldMinPending f rest).pendingTasks < f.pendingTasks :=
                hpre f (by simp)
              rcases List.mem_cons.mp hx with rfl | hx
              · exact hf
              · rcases List.mem_cons.mp hx with rfl | hx
                · exact lt_of_lt_of_le hf hgf
                · exact hpre x (by simp [hx])

/-- Splitting a filtered list lifts to a split of the original list with
the same filtered prefix. -/
theorem filter_split {α : Type} (p : α → Bool) (fs l1f l2f : List α) (m : α)
    (h : fs.filter p = l1f ++ m :: l2f) :
    ∃ l1 l2, fs = l1 ++ m :: l2 ∧ l1.filter p = l1f := by
  induction fs generalizing l1f with
  | nil => simp at h
  | cons x rest ih =>
      by_cases hx : p x
      · rw [List.filter_cons_of_pos hx] at h
        cases l1f with
        | nil =>
            simp only [List.nil_append, List.cons.injEq] at h
            exact ⟨[], rest, by simp [h.1], by simp⟩
        | cons y l1f' =>
            simp only [List.cons_append, List.cons.injEq] at h
            obtain ⟨rfl, hrest⟩ := h
            obtain ⟨l1, l2, hsplit, hfilter⟩ := ih l1f' hrest
            exact ⟨x :: l1, l2, by simp [hsplit],
              by simp [List.filter_cons_of_pos hx, hfilter]⟩
      · rw [List.filter_cons_of_neg hx] at h
        obtain ⟨l1, l2, hsplit, hfilter⟩ := ih l1f h
        exact ⟨x :: l1, l2, by simp [hsplit],
          by simp [List.filter_cons_of_neg hx, hfilter]⟩

/-- C3: `select_next_focus` returns the first feature in list order
(sorted-name order after `load`) whose status is InProgress when one
exists; otherwise, among features with pending tasks, the one with the
fewest pending tasks, the first such feature on ties; and it returns
none exactly when no feature is InProgress and none has pending
tasks. -/
theorem select_next_focus_spec (fs : List FeatureStatus) :
    (selectNextFocus fs = none ↔
      ∀ f ∈ fs, f.status ≠ FeatureState.inProgress ∧ f.pendingTasks = 0) ∧
    (∀ m, selectNextFocus fs = some m →
      (m.status = FeatureState.inProgress ∧
        ∃ l1 l2, fs = l1 ++ m :: l2 ∧ ∀ g ∈ l1, g.status ≠ FeatureState.inProgress) ∨
      ((∀ g ∈ fs, g.status ≠ FeatureState.inProgress) ∧ 0 < m.pendingTasks ∧
        (∀ g ∈ fs, 0 < g.pendingTasks → m.pendingTasks ≤ g.pendingTasks) ∧
        ∃ l1 l2, fs = l1 ++ m :: l2 ∧
          ∀ g ∈ l1, 0 < g.pendingTasks → m.pendingTasks < g.pendingTasks)) := by
  constructor
  · unfold selectNextFocus
    cases hfind : findInProgressFeature fs with
    | some f =>
        simp only [reduceCtorEq, false_iff]
        intro hall
        obtain ⟨hp, _⟩ := List.find?_eq_some.mp hfind
        exact (hall f (List.mem_of_find?_eq_some hfind)).1 (by simpa using hp)
    | none =>
        have hno : ∀ f ∈ fs, f.status ≠ FeatureState.inProgress := by
          intro f hf
          have := List.find?_eq_none.mp hfind f hf
          simpa using this
        constructor
        · intro hnone f hf
          refine ⟨hno f hf, ?_⟩
          cases hfilter : fs.filter (fun f => decide (0 < f.pendingTasks)) with
          | nil =>
              have := List.filter_eq_nil_iff.mp hfilter f hf
              simpa using this
          | cons x xs => simp [minByPending, hfilter] at hnone
        · intro hall
          have hfilter : fs.filter (fun f => decide (0 < f.pendingTasks)) = [] := by
            rw [List.filter_eq_nil_iff]
            intro f hf
            simp [(hall f hf).2]
          simp [minByPending, hfilter]
  · intro m hm
    unfold selectNextFocus at hm
    cases hfind : findInProgressFeature fs with
    | some f =>
        rw [hfind] at hm
        cases hm
        obtain ⟨hp, l1, l2, hsplit, hpre⟩ := List.find?_eq_some.mp hfind
        refine Or.inl ⟨by simpa using hp, l1, l2, hsplit, ?_⟩
        intro g hg
        have := hpre g hg
        simpa using this
    | none =>
        rw [hfind] at hm
        have hno : ∀ f ∈ fs, f.status ≠ FeatureState.inProgress := by
          intro f hf
          have := List.find?_eq_none.mp hfind f hf
          simpa using this
        cases hfl : fs.filter (fun f => decide (0 < f.pendingTasks)) with
        | nil => simp [minByPending, hfl] at hm
        | cons x xs =>
            rw [hfl] at hm
            simp only [minByPending, Option.some.injEq] at hm
            obtain ⟨hmem, hlex, hall, l1f, l2f, hsplitf, hpref⟩ := foldMinPending_spec xs x
            rw [hm] at hmem hlex hall hsplitf hpref
            have hmemfl : m ∈ fs.filter (fun f => decide (0 < f.pendingTasks)) := by
              rw [hfl]
              rcases hmem with h | h
              · simp [h]
              · simp [h]
            have hmpos : 0 < m.pendingTasks := by
              have := List.of_mem_filter hmemfl
              simpa using this
            have hminall : ∀ g ∈ fs, 0 < g.pendingTasks → m.pendingTasks ≤ g.pendingTasks := by
              intro g hg hgpos
              have hgfl : g ∈ fs.filter (fun f => decide (0 < f.pendingTasks)) :=
                List.mem_filter.mpr ⟨hg, by simpa using hgpos⟩
              rw [hfl] at hgfl
              rcases List.mem_cons.mp hgfl with rfl | hgfl
              · exact hlex
              · exact hall g hgfl
            have hsplit' : fs.filter (fun f => decide (0 < f.pendingTasks)) =
                l1f ++ m :: l2f := hfl.trans hsplitf
            obtain ⟨l1, l2, hsplit, hfilter⟩ :=
              filter_split (α := FeatureStatus)
                (fun f => decide (0 < f.pendingTasks)) fs l1f l2f m hsplit'
            refine Or.inr ⟨hno, hmpos, hminall, l1, l2, hsplit, ?_⟩
            intro g hg hgpos
            have hgfl : g ∈ l1f := by
              rw [← hfilter]
              exact List.mem_filter.mpr ⟨hg, by simpa using hgpos⟩
            exact hpref g hgfl

/-- Witness for `select_next_focus_spec`: among two pending features
with pending counts 3 and 1 and no in-progress feature, the selection
picks the one with 1 pending task (here via the theorem's second
conjunct at the selected feature). -/
theorem select_next_focus_spec_witness :
    (selectNextFocus
        [⟨"big", FeatureState.pending, 3, 0, 3⟩,
         ⟨"small", FeatureState.pending, 1, 0, 1⟩] =
      some ⟨"small", FeatureState.pending, 1, 0, 1⟩) ∧
    (0 < (1 : Nat) ∧
      ∀ g ∈ [⟨"big", FeatureState.pending, 3, 0, 3⟩,
             (⟨"small", FeatureState.pending, 1, 0, 1⟩ : FeatureStatus)],
        0 < g.pendingTasks →
          (1 : Nat) ≤ g.pendingTasks) := by
  have h := (select_next_focus_spec
    [⟨"big", FeatureState.pending, 3, 0, 3⟩,
     ⟨"small", FeatureState.pending, 1, 0, 1⟩]).2
    ⟨"small", FeatureState.pending, 1, 0, 1⟩ (by decide)
  rcases h with ⟨hst, _⟩ | ⟨_, hpos, hmin, _⟩
  · exact absurd hst (by decide)
  · exact ⟨by decide, hpos, hmin⟩

/-! ## Pending-work detection (`src/verify.rs` lines 177-257) -/

/-- Numbered section header `^###\s+\d+\.\d+\s+.+$`
(`header_re`, `src/verify.rs` line 250).  The regex needs, after the
numbering, at least one whitespace character followed by at least one
further character (`.` matches whitespace too, so `\s+.+$` holds exactly
when the first remaining character is whitespace and at least one more
character follows). -/
def isHeaderLine (cs : List Char) : Bool :=
  match cs with
  | '#' :: '#' :: '#' :: rest =>
      match rest with
      | c :: rest1 =>
          if isWsChar c then
            match rest1.dropWhile isWsChar with
            | d :: rest2 =>
                if d.isDigit then
                  match rest2.dropWhile Char.isDigit with
                  | '.' :: rest3 =>
                      match rest3 with
                      | e :: rest4 =>
                          if e.isDigit then
                            match rest4.dropWhile Char.isDigit with
                            | w :: tail => isWsChar w && !tail.isEmpty
                            | [] => false
                          else false
                      | [] => false
                  | _ => false
                else false
            | [] => false
          else false
      | [] => false
  | _ => false

/-- Pending section header: a numbered header carrying neither
completion marker (`src/verify.rs` lines 251-253). -/
def isPendingHeaderLine (cs : List Char) : Bool :=
  isHeaderLine cs && !cs.contains '✅' && !cs.contains '✓'

/-- A document (list of lines) containing a pending checkbox. -/
def hasPendingCheckbox (lines : List (List Char)) : Bool :=
  lines.any isPendingLine

/-- `has_pending_tasks_legacy` (`src/verify.rs` lines 235-257):
`none` models a missing or unreadable plan file (both return false);
otherwise a pending checkbox anywhere, else a numbered section header
without a completion marker. -/
def hasPendingTasksLegacy (plan : Option (List (List Char))) : Bool :=
  match plan with
  | none => false
  | some lines =>
      if lines.any isPendingLine then true
      else lines.any isPendingHeaderLine

/-- Extension per Rust's `Path::extension`: the portion after the last
`.` of the file name, none when there is no `.` or the only `.` is the
leading character. -/
def lastDotSplit : List Char → Option (List Char × List Char)
  | [] => none
  | c :: rest =>
      match lastDotSplit rest with
      | some (b, a) => some (c :: b, a)
      | none => if c = '.' then some ([], rest) else none

/-- Rust `Path::extension` on a bare file name. -/
def rustExtension (name : String) : Option String :=
  match lastDotSplit name.toList with
  | none => none
  | some (before, after) => if before = [] then none else some (String.mk after)

/-- Hierarchical directory state: the index document `impl/README.md`
(whose existence selects hierarchical detection) and the other directory
entries as file-name/content pairs (a sub-directory such as `.archive`
is skipped by name by every scanner, so its content never matters;
archived files live inside it and are therefore not entries here). -/
structure ImplDir where
  readme : List (List Char)
  entries : List (String × List (List Char))
  deriving DecidableEq, Repr

/-- Entry filter of `has_pending_tasks_hierarchical` (`src/verify.rs`
lines 203-212): skip `README.md` and `.archive` by name, then require
extension `md`. -/
def eligibleFeatureEntry (e : String × List (List Char)) : Bool :=
  if e.1 = "README.md" ∨ e.1 = ".archive" then false
  else decide (rustExtension e.1 = some "md")

/-- `has_pending_tasks_hierarchical` (`src/verify.rs` lines 195-232):
a pending checkbox in any eligible feature file, else in the index
document. -/
def hasPendingTasksHierarchical (d : ImplDir) : Bool :=
  (d.entries.any fun e => eligibleFeatureEntry e && hasPendingCheckbox e.2)
    || hasPendingCheckbox d.readme

/-- `has_pending_tasks_with_impl_dir` (`src/verify.rs` lines 182-192):
hierarchical detection when `impl/README.md` exists, legacy detection
otherwise. -/
def hasPendingTasks (plan : Option (List (List Char))) (implDir : Option ImplDir) : Bool :=
  match implDir with
  | some d => hasPendingTasksHierarchical d
  | none => hasPendingTasksLegacy plan

/-- Claim C5 as stated: `has_pending_tasks` is true iff either no
hierarchical index exists and the document contains a pending-checkbox
line, or the index exists and a non-archived feature document or the
index document contains one. -/
def pendingAsClaimed (plan : Option (List (List Char))) (implDir : Option ImplDir) : Prop :=
  match implDir with
  | none => ∃ l ∈ plan.getD [], isPendingLine l = true
  | some d =>
      (∃ e ∈ d.entries, eligibleFeatureEntry e = true ∧ ∃ l ∈ e.2, isPendingLine l = true) ∨
      (∃ l ∈ d.readme, isPendingLine l = true)

/-- Counterexample to C5 as stated: with no hierarchical index, a legacy
plan consisting of the single numbered section header
`### 1.2 Create project structure` (no checkbox anywhere) makes
`has_pending_tasks` true, but the claimed condition false. -/
theorem has_pending_tasks_counterexample :
    ¬ (hasPendingTasks (some [("### 1.2 Create project structure".toList)]) none = true ↔
        pendingAsClaimed (some [("### 1.2 Create project structure".toList)]) none) := by
  intro h
  have h1 : hasPendingTasks (some [("### 1.2 Create project structure".toList)]) none = true := by
    decide
  obtain ⟨l, hl, hp⟩ := h.mp h1
  simp only [Option.getD_some, List.mem_singleton] at hl
  subst hl
  exact absurd hp (by decide)

/-- C5 (amended: in legacy mode a numbered section header lacking a
completion marker also counts as pending work): `has_pending_tasks` is
true iff either no hierarchical index exists and the plan document
contains a pending-checkbox line or a pending numbered section header,
or the index exists and a non-archived feature document or the index
document contains a pending-checkbox line. -/
theorem has_pending_tasks_iff (plan : Option (List (List Char)))
    (implDir : Option ImplDir) :
    hasPendingTasks plan implDir = true ↔
      (match implDir with
       | none =>
          ∃ lines, plan = some lines ∧
            ((∃ l ∈ lines, isPendingLine l = true) ∨
              (∃ l ∈ lines, isPendingHeaderLine l = true))
       | some d =>
          (∃ e ∈ d.entries, eligibleFeatureEntry e = true ∧
            ∃ l ∈ e.2, isPendingLine l = true) ∨
          (∃ l ∈ d.readme, isPendingLine l = true)) := by
  cases implDir with
  | some d =>
      simp [hasPendingTasks, hasPendingTasksHierarchical, hasPendingCheckbox,
            List.any_eq_true, Bool.and_eq_true]
  | none =>
      cases plan with
      | none => simp [hasPendingTasks, hasPendingTasksLegacy]
      | some lines =>
          simp only [hasPendingTasks, hasPendingTasksLegacy]
          split
          · rename_i hcb
            simp only [true_iff]
            exact ⟨lines, rfl, Or.inl (by simpa [List.any_eq_true] using hcb)⟩
          · rename_i hcb
            simp only [List.any_eq_true]
            constructor
            · rintro ⟨l, hl, h⟩
              exact ⟨lines, rfl, Or.inr ⟨l, hl, h⟩⟩
            · rintro ⟨lines', heq, h | h⟩
              · cases heq
                exact absurd (List.any_eq_true.mpr h) (by simpa using hcb)
              · cases heq
                exact h

/-- Witness for `has_pending_tasks_iff`: a legacy plan with one pending
checkbox is detected, via the theorem's backward direction. -/
theorem has_pending_tasks_iff_witness :
    hasPendingTasks (some [("- [ ] Pending task".toList)]) none = true :=
  (has_pending_tasks_iff (some [("- [ ] Pending task".toList)]) none).mpr
    ⟨[("- [ ] Pending task".toList)], rfl,
      Or.inl ⟨("- [ ] Pending task".toList), by simp, by decide⟩⟩

/-! ## Hierarchical index loading (`ImplIndex::load`,
`src/impl_plan.rs` lines 75-118)

`load` reads every eligible feature file (a read error would drop the
file; file contents are given, so every parse succeeds), sorts the
features by name, and counts the cross-cutting checkboxes of the index
document.  The `current_focus` capture is presentation metadata not
involved in any claim and is left out. -/

/-- Entry filter of `ImplIndex::load` (`src/impl_plan.rs` lines 89-95):
skip `README.md` and `.archive` by name, and keep only file names ending
in `.md` (this uses `ends_with`, unlike the extension test of the
pending-work scanner). -/
def eligibleLoadEntry (e : String × List (List Char)) : Bool :=
  if e.1 = "README.md" ∨ e.1 = ".archive" then false
  else ".md".toList.isSuffixOf e.1.toList

/-- Rust `Path::file_stem` on a bare file name: the name without its
extension. -/
def stemOf (name : String) : String :=
  match lastDotSplit name.toList with
  | none => name
  | some (before, _) => if before = [] then name else String.mk before

/-- Whether `needle` occurs as a contiguous run at the head of `hay`. -/
def listStartsWith : List Char → List Char → Bool
  | [], _ => true
  | _ :: _, [] => false
  | a :: as, b :: bs => a = b && listStartsWith as bs

/-- Whether `needle` occurs as a contiguous run anywhere in `hay`
(Rust's `str::contains` for a newline-free needle, applied per line). -/
def lineHasSub (needle : List Char) : List Char → Bool
  | [] => listStartsWith needle []
  | c :: rest => listStartsWith needle (c :: rest) || lineHasSub needle rest

/-- CrossCuttingTasks from `src/impl_plan.rs` lines 67-71. -/
structure CrossCuttingTasks where
  total : Nat
  completed : Nat
  pending : Nat
  deriving DecidableEq, Repr

/-- `count_cross_cutting_tasks` (`src/impl_plan.rs` lines 240-273):
zero unless the document mentions `## Cross-Cutting`; otherwise count
pending and complete checkboxes outside table rows (lines containing a
`|` cell delimiter are skipped). -/
def countCrossCutting (readme : List (List Char)) : CrossCuttingTasks :=
  if readme.any (fun l => lineHasSub "## Cross-Cutting".toList l) then
    let counts := readme.foldl
      (fun (acc : Nat × Nat) l =>
        if l.contains '|' then acc
        else if isPendingLine l then (acc.1 + 1, acc.2)
        else if isCompleteLine l then (acc.1, acc.2 + 1)
        else acc)
      (0, 0)
    { total := counts.1 + counts.2, completed := counts.2, pending := counts.1 }
  else { total := 0, completed := 0, pending := 0 }

/-- ImplIndex projection built by `load` (features sorted by name, plus
the cross-cutting counts). -/
structure ImplIndexM where
  features : List FeatureStatus
  crossCutting : CrossCuttingTasks
  deriving DecidableEq, Repr

/-- `ImplIndex::load` over the directory state. -/
def loadIndex (d : ImplDir) : ImplIndexM :=
  { features :=
      ((d.entries.filter eligibleLoadEntry).map
        (fun e => parseFeatureFile (stemOf e.1) e.2)).mergeSort
        (fun a b => decide (a.name ≤ b.name)),
    crossCutting := countCrossCutting d.readme }

/-- `ImplIndex::pending_tasks` (`src/impl_plan.rs` lines 132-135). -/
def ImplIndexM.pendingTasks (idx : ImplIndexM) : Nat :=
  (idx.features.map FeatureStatus.pendingTasks).sum + idx.crossCutting.pending

/-- C10: for a hierarchical plan whose eligible documents have no
pending checkbox anywhere (outside the archive) while some feature
document has an in-progress checkbox, `has_pending_tasks` reports no
pending work while the loaded index's `pending_tasks()` is strictly
positive (in-progress items count as pending there), so the engine can
finish as `Complete` while the index still reports pending work. -/
theorem inprogress_pending_gap (d : ImplDir)
    (hfeat : ∀ e ∈ d.entries, eligibleFeatureEntry e = true →
      ∀ l ∈ e.2, isPendingLine l = false)
    (hreadme : ∀ l ∈ d.readme, isPendingLine l = false)
    (hin : ∃ e ∈ d.entries, eligibleLoadEntry e = true ∧
      ∃ l ∈ e.2, isInProgressLine l = true) :
    hasPendingTasksHierarchical d = false ∧ 0 < (loadIndex d).pendingTasks := by
  constructor
  · have h1 : (d.entries.any fun e => eligibleFeatureEntry e && hasPendingCheckbox e.2) = false := by
      rw [List.any_eq_false]
      intro e he hcon
      rw [Bool.and_eq_true] at hcon
      obtain ⟨helig, hpend⟩ := hcon
      rw [hasPendingCheckbox, List.any_eq_true] at hpend
      obtain ⟨l, hl, hp⟩ := hpend
      simp [hfeat e he helig l hl] at hp
    have h2 : hasPendingCheckbox d.readme = false := by
      rw [hasPendingCheckbox, List.any_eq_false]
      intro l hl hcon
      simp [hreadme l hl] at hcon
    simp [hasPendingTasksHierarchical, h1, h2]
  · obtain ⟨e, he, helig, l, hl, hinp⟩ := hin
    have hmem : parseFeatureFile (stemOf e.1) e.2 ∈
        (d.entries.filter eligibleLoadEntry).map
          (fun e => parseFeatureFile (stemOf e.1) e.2) :=
      List.mem_map_of_mem _ (List.mem_filter.mpr ⟨he, helig⟩)
    have hpos : 0 < (parseFeatureFile (stemOf e.1) e.2).pendingTasks := by
      have hcin : countedInProgress l = true := by
        have hnp : isPendingLine l = false := by
          by_contra hcon
          have := ((checkbox_classes_disjoint l).1 (by simpa using hcon)).2
          simp [hinp] at this
        have hnc : isCompleteLine l = false := by
          by_contra hcon
          have := (checkbox_classes_disjoint l).2 (by simpa using hcon)
          simp [hinp] at this
        simp [countedInProgress, hnp, hnc, hinp]
      have : 0 < e.2.countP countedInProgress :=
        List.countP_pos_iff.mpr ⟨l, hl, hcin⟩
      simp only [parseFeatureFile, featureCounts_eq_countP]
      omega
    have hsum : (parseFeatureFile (stemOf e.1) e.2).pendingTasks ≤
        (((d.entries.filter eligibleLoadEntry).map
          (fun e => parseFeatureFile (stemOf e.1) e.2)).map
            FeatureStatus.pendingTasks).sum :=
      List.single_le_sum (fun x _ => Nat.zero_le x) _
        (List.mem_map_of_mem FeatureStatus.pendingTasks hmem)
    have hperm : ((loadIndex d).features.map FeatureStatus.pendingTasks).sum =
        (((d.entries.filter eligibleLoadEntry).map
          (fun e => parseFeatureFile (stemOf e.1) e.2)).map
            FeatureStatus.pendingTasks).sum := by
      exact List.Perm.sum_eq
        (List.Perm.map FeatureStatus.pendingTasks (List.mergeSort_perm _ _))
    unfold ImplIndexM.pendingTasks
    omega

/-- Witness for `inprogress_pending_gap`: a directory with a single
feature file holding one in-progress checkbox and an index without
checkboxes. -/
theorem inprogress_pending_gap_witness :
    hasPendingTasksHierarchical
        ⟨[("# Plan".toList)], [("auth.md", [("- [~] Task".toList)])]⟩ = false ∧
      0 < (loadIndex
        ⟨[("# Plan".toList)], [("auth.md", [("- [~] Task".toList)])]⟩).pendingTasks := by
  refine inprogress_pending_gap _ ?_ ?_ ?_
  · intro e he helig l hl
    simp only [List.mem_singleton] at he
    subst he
    simp only [List.mem_singleton] at hl
    subst hl
    decide
  · intro l hl
    simp only [List.mem_singleton] at hl
    subst hl
    decide
  · exact ⟨("auth.md", [("- [~] Task".toList)]), by simp, by decide,
      ("- [~] Task".toList), by simp, by decide⟩

/-! ## Migration (`migrate_plan`, `src/impl_plan.rs` lines 413-453)

`migrate_plan` writes one rendered document per spec group (HashMap
iteration order is arbitrary; the order is taken as given), then the
rendered index document, then renames the legacy plan to its backup
path, each step propagating failure with `?` and no rollback.  Document
rendering (`generate_feature_file`, `generate_readme`) is pure string
formatting and the rendered contents are taken as inputs; directory
creation is modelled as always succeeding.  The filesystem is a map
from path to content; a write to a path in the injected failure set
fails, and the rename fails when the source is absent. -/

/-- Filesystem state: path/content pairs, first match wins. -/
structure FSState where
  files : List (String × String)
  deriving DecidableEq, Repr

/-- Content at a path. -/
def assocFind (p : String) : List (String × String) → Option String
  | [] => none
  | (q, v) :: rest => if q = p then some v else assocFind p rest

/-- Content at a path. -/
def fsLookup (p : String) (fs : FSState) : Option String := assocFind p fs.files

/-- Overwrite a path with new content. -/
def fsWrite (path content : String) (fs : FSState) : FSState :=
  { files := (path, content) :: fs.files.filter (fun e => decide (e.1 ≠ path)) }

/-- Remove a path. -/
def fsErase (path : String) (fs : FSState) : FSState :=
  { files := fs.files.filter (fun e => decide (e.1 ≠ path)) }

/-- Write a list of documents in order, stopping at the first failing
write (`fs::write(..)?` in the loop of `migrate_plan`): returns the
state reached and whether every write succeeded. -/
def writeAll (fail : List String) (docs : List (String × String)) (fs : FSState) :
    FSState × Bool :=
  match docs with
  | [] => (fs, true)
  | (p, c) :: rest =>
      if p ∈ fail then (fs, false)
      else writeAll fail rest (fsWrite p c fs)

/-- `migrate_plan` (`src/impl_plan.rs` lines 413-453): write the feature
documents, then the index document, then rename the legacy plan to the
backup path; the second component tells whether the whole migration
succeeded, the first is the filesystem state actually reached. -/
def migratePlan (fail : List String) (legacyPath backupPath : String)
    (featureDocs : List (String × String)) (readmePath readmeDoc : String)
    (fs : FSState) : FSState × Bool :=
  let step1 := writeAll fail featureDocs fs
  if step1.2 = false then step1
  else
    let step2 := writeAll fail [(readmePath, readmeDoc)] step1.1
    if step2.2 = false then step2
    else
      match fsLookup legacyPath step2.1 with
      | none => (step2.1, false)
      | some content => (fsWrite backupPath content (fsErase legacyPath step2.1), true)

/-- Claim C9 as stated, at one execution: either the filesystem is
unchanged, or every generated document was written and the legacy
document renamed away. -/
def migrationAtomicAt (fail : List String) (legacyPath backupPath : String)
    (featureDocs : List (String × String)) (readmePath readmeDoc : String)
    (fs : FSState) : Prop :=
  (migratePlan fail legacyPath backupPath featureDocs readmePath readmeDoc fs).1 = fs ∨
  ((∀ pc ∈ featureDocs,
      fsLookup pc.1 (migratePlan fail legacyPath backupPath featureDocs
        readmePath readmeDoc fs).1 = some pc.2) ∧
    fsLookup readmePath (migratePlan fail legacyPath backupPath featureDocs
      readmePath readmeDoc fs).1 = some readmeDoc ∧
    fsLookup legacyPath (migratePlan fail legacyPath backupPath featureDocs
      readmePath readmeDoc fs).1 = none)

/-- Counterexample to C9: when the index-document write fails after one
feature document was already written, `migrate_plan` reports failure,
the feature document remains on disk, and the legacy plan was not
renamed — neither all of the effects nor none of them. -/
theorem migrate_plan_not_transactional :
    ¬ migrationAtomicAt ["impl/README.md"] "PLAN.md" "PLAN.md.backup"
        [("impl/auth.md", "docA")] "impl/README.md" "docR" ⟨[("PLAN.md", "legacy")]⟩ ∧
    (migratePlan ["impl/README.md"] "PLAN.md" "PLAN.md.backup"
        [("impl/auth.md", "docA")] "impl/README.md" "docR"
        ⟨[("PLAN.md", "legacy")]⟩).2 = false ∧
    fsLookup "impl/auth.md"
        (migratePlan ["impl/README.md"] "PLAN.md" "PLAN.md.backup"
          [("impl/auth.md", "docA")] "impl/README.md" "docR"
          ⟨[("PLAN.md", "legacy")]⟩).1 = some "docA" ∧
    fsLookup "PLAN.md"
        (migratePlan ["impl/README.md"] "PLAN.md" "PLAN.md.backup"
          [("impl/auth.md", "docA")] "impl/README.md" "docR"
          ⟨[("PLAN.md", "legacy")]⟩).1 = some "legacy" := by
  refine ⟨?_, by decide, by decide, by decide⟩
  intro h
  rcases h with h | ⟨_, h, _⟩
  · exact absurd (congrArg FSState.files h) (by decide)
  · exact absurd h (by decide)

/-- Looking up the path just written. -/
theorem fsLookup_write_self (p c : String) (fs : FSState) :
    fsLookup p (fsWrite p c fs) = some c := by
  simp [fsLookup, fsWrite, assocFind]

/-- Filtering out another path does not change a lookup. -/
theorem assocFind_filter_ne (q p : String) (l : List (String × String)) (h : q ≠ p) :
    assocFind q (l.filter (fun e => decide (e.1 ≠ p))) = assocFind q l := by
  induction l with
  | nil => rfl
  | cons e rest ih =>
      obtain ⟨ep, ev⟩ := e
      by_cases he : ep = p
      · rw [List.filter_cons_of_neg (by simp [he]), ih, assocFind,
            if_neg (fun hc => h (hc.symm.trans he))]
      · rw [List.filter_cons_of_pos (by simp [he]), assocFind, assocFind, ih]

/-- Writing another path does not change a lookup. -/
theorem fsLookup_write_ne (q p c : String) (fs : FSState) (h : q ≠ p) :
    fsLookup q (fsWrite p c fs) = fsLookup q fs := by
  unfold fsLookup fsWrite
  rw [assocFind, if_neg (fun hc => h hc.symm)]
  exact assocFind_filter_ne q p fs.files h

/-- Filtering out a path removes it from lookups. -/
theorem assocFind_filter_self (p : String) (l : List (String × String)) :
    assocFind p (l.filter (fun e => decide (e.1 ≠ p))) = none := by
  induction l with
  | nil => rfl
  | cons e rest ih =>
      obtain ⟨ep, ev⟩ := e
      by_cases he : ep = p
      · rw [List.filter_cons_of_neg (by simp [he])]
        exact ih
      · rw [List.filter_cons_of_pos (by simp [he]), assocFind, if_neg he]
        exact ih

/-- Erasing a path removes it. -/
theorem fsLookup_erase_self (p : String) (fs : FSState) :
    fsLookup p (fsErase p fs) = none :=
  assocFind_filter_self p fs.files

/-- Erasing another path does not change a lookup. -/
theorem fsLookup_erase_ne (q p : String) (fs : FSState) (h : q ≠ p) :
    fsLookup q (fsErase p fs) = fsLookup q fs :=
  assocFind_filter_ne q p fs.files h

/-- Applying a list of writes leaves paths outside the list unchanged. -/
theorem fsLookup_foldl_notin (docs : List (String × String)) (fs : FSState)
    (q : String) (h : q ∉ docs.map Prod.fst) :
    fsLookup q (docs.foldl (fun acc pc => fsWrite pc.1 pc.2 acc) fs) = fsLookup q fs := by
  induction docs generalizing fs with
  | nil => rfl
  | cons pc rest ih =>
      simp only [List.map_cons, List.mem_cons, not_or] at h
      rw [List.foldl_cons, ih _ h.2, fsLookup_write_ne _ _ _ _ h.1]

/-- With distinct paths, applying a list of writes makes every document
of the list present with its content. -/
theorem fsLookup_foldl_mem (docs : List (String × String)) (fs : FSState)
    (pc : String × String) (hmem : pc ∈ docs) (hnodup : (docs.map Prod.fst).Nodup) :
    fsLookup pc.1 (docs.foldl (fun acc e => fsWrite e.1 e.2 acc) fs) = some pc.2 := by
  induction docs generalizing fs with
  | nil => simp at hmem
  | cons e rest ih =>
      simp only [List.map_cons, List.nodup_cons] at hnodup
      rcases List.mem_cons.mp hmem with rfl | hmem
      · rw [List.foldl_cons,
            fsLookup_foldl_notin rest _ pc.1 hnodup.1, fsLookup_write_self]
      · rw [List.foldl_cons]
        exact ih _ hmem hnodup.2

/-- A fully successful `writeAll` applies every write in order. -/
theorem writeAll_success (fail : List String) (docs : List (String × String))
    (fs : FSState) (h : (writeAll fail docs fs).2 = true) :
    (writeAll fail docs fs).1 =
      docs.foldl (fun acc e => fsWrite e.1 e.2 acc) fs := by
  induction docs generalizing fs with
  | nil => rfl
  | cons e rest ih =>
      by_cases hf : e.1 ∈ fail
      · rw [writeAll.eq_def] at h
        simp only [if_pos hf] at h
        cases h
      · rw [writeAll.eq_def] at h ⊢
        simp only [if_neg hf] at h ⊢
        exact ih _ h

/-- A failing `writeAll` applies the writes of some prefix of the list
and nothing else. -/
theorem writeAll_failure (fail : List String) (docs : List (String × String))
    (fs : FSState) (h : (writeAll fail docs fs).2 = false) :
    ∃ pre suf, docs = pre ++ suf ∧
      (writeAll fail docs fs).1 =
        pre.foldl (fun acc e => fsWrite e.1 e.2 acc) fs := by
  induction docs generalizing fs with
  | nil => cases h
  | cons e rest ih =>
      by_cases hf : e.1 ∈ fail
      · refine ⟨[], e :: rest, rfl, ?_⟩
        rw [writeAll.eq_def]
        simp [if_pos hf]
      · rw [writeAll.eq_def] at h ⊢
        simp only [if_neg hf] at h ⊢
        obtain ⟨pre, suf, hsplit, hstate⟩ := ih _ h
        exact ⟨e :: pre, suf, by simp [hsplit], by simp [hstate]⟩

/-- C9 (amended: the migration is sequential, not transactional).  On
success every generated feature document and the index document are on
disk with their contents, the legacy document is gone and its content
sits at the backup path.  On failure the legacy document is untouched
and the filesystem holds exactly the writes of some prefix of the
planned document list — documents written before the failure remain (no
rollback).  The path-disjointness hypotheses reflect the real layout
(feature and index documents live under `impl/` with distinct names;
the legacy plan and its backup live outside). -/
theorem migrate_plan_effects (fail : List String) (legacyPath backupPath : String)
    (featureDocs : List (String × String)) (readmePath readmeDoc : String)
    (fs : FSState)
    (hnodup : (featureDocs.map Prod.fst).Nodup)
    (hrf : readmePath ∉ featureDocs.map Prod.fst)
    (hlf : legacyPath ∉ featureDocs.map Prod.fst)
    (hlr : legacyPath ≠ readmePath)
    (hbl : backupPath ≠ legacyPath)
    (hbr : backupPath ≠ readmePath)
    (hbf : backupPath ∉ featureDocs.map Prod.fst) :
    ((migratePlan fail legacyPath backupPath featureDocs readmePath readmeDoc fs).2 = true →
      (∀ pc ∈ featureDocs,
        fsLookup pc.1 (migratePlan fail legacyPath backupPath featureDocs
          readmePath readmeDoc fs).1 = some pc.2) ∧
      fsLookup readmePath (migratePlan fail legacyPath backupPath featureDocs
        readmePath readmeDoc fs).1 = some readmeDoc ∧
      fsLookup legacyPath (migratePlan fail legacyPath backupPath featureDocs
        readmePath readmeDoc fs).1 = none ∧
      (∃ c, fsLookup legacyPath fs = some c ∧
        fsLookup backupPath (migratePlan fail legacyPath backupPath featureDocs
          readmePath readmeDoc fs).1 = some c)) ∧
    ((migratePlan fail legacyPath backupPath featureDocs readmePath readmeDoc fs).2 = false →
      fsLookup legacyPath (migratePlan fail legacyPath backupPath featureDocs
        readmePath readmeDoc fs).1 = fsLookup legacyPath fs ∧
      ∃ pre suf, featureDocs ++ [(readmePath, readmeDoc)] = pre ++ suf ∧
        (migratePlan fail legacyPath backupPath featureDocs readmePath readmeDoc fs).1 =
          pre.foldl (fun acc e => fsWrite e.1 e.2 acc) fs) := by
  unfold migratePlan
  dsimp only
  split
  case isTrue h1 =>
    constructor
    · intro hcon
      rw [h1] at hcon
      cases hcon
    · intro _
      obtain ⟨pre, suf, hsplit, hstate⟩ := writeAll_failure fail featureDocs fs h1
      refine ⟨?_, pre, suf ++ [(readmePath, readmeDoc)], by simp [hsplit], hstate⟩
      rw [hstate, fsLookup_foldl_notin]
      intro hcon
      exact hlf (by rw [hsplit]; simpa using Or.inl hcon)
  case isFalse h1ne =>
    have h1 : (writeAll fail featureDocs fs).2 = true := by
      revert h1ne
      cases (writeAll fail featureDocs fs).2 <;> simp
    have hstate1 := writeAll_success fail featureDocs fs h1
    split
    case isTrue h2 =>
      have hfailed : readmePath ∈ fail := by
        by_contra hcon
        rw [writeAll.eq_def] at h2
        simp only [if_neg hcon] at h2
        exact absurd h2 (by simp [writeAll])
      have hstate2 : (writeAll fail [(readmePath, readmeDoc)]
          (writeAll fail featureDocs fs).1).1 = (writeAll fail featureDocs fs).1 := by
        rw [writeAll.eq_def]
        simp [if_pos hfailed]
      constructor
      · intro hcon
        rw [h2] at hcon
        cases hcon
      · intro _
        refine ⟨?_, featureDocs, [(readmePath, readmeDoc)], rfl, by rw [hstate2, hstate1]⟩
        rw [hstate2, hstate1, fsLookup_foldl_notin _ _ _ hlf]
    case isFalse h2ne =>
      have h2 : (writeAll fail [(readmePath, readmeDoc)]
          (writeAll fail featureDocs fs).1).2 = true := by
        revert h2ne
        cases (writeAll fail [(readmePath, readmeDoc)] (writeAll fail featureDocs fs).1).2 <;>
          simp
      have hstate2 := writeAll_success fail [(readmePath, readmeDoc)]
        (writeAll fail featureDocs fs).1 h2
      have hmid : (writeAll fail [(readmePath, readmeDoc)]
          (writeAll fail featureDocs fs).1).1 =
          (featureDocs ++ [(readmePath, readmeDoc)]).foldl
            (fun acc e => fsWrite e.1 e.2 acc) fs := by
        rw [hstate2, hstate1]
        simp
      have hlegacy : fsLookup legacyPath
          (writeAll fail [(readmePath, readmeDoc)]
            (writeAll fail featureDocs fs).1).1 = fsLookup legacyPath fs := by
        rw [hstate2, hstate1]
        simp only [List.foldl_cons, List.foldl_nil]
        rw [fsLookup_write_ne _ _ _ _ hlr, fsLookup_foldl_notin _ _ _ hlf]
      split
      case h_1 heq =>
        constructor
        · intro hcon
          cases hcon
        · intro _
          exact ⟨hlegacy, featureDocs ++ [(readmePath, readmeDoc)], [], by simp,
            by rw [hmid]⟩
      case h_2 content heq =>
        constructor
        · intro _
          refine ⟨?_, ?_, ?_, content, by rw [← hlegacy, heq], ?_⟩
          · intro pc hpc
            have hne1 : pc.1 ≠ backupPath := fun hc =>
              hbf (hc ▸ List.mem_map_of_mem Prod.fst hpc)
            have hne2 : pc.1 ≠ legacyPath := fun hc =>
              hlf (hc ▸ List.mem_map_of_mem Prod.fst hpc)
            rw [fsLookup_write_ne _ _ _ _ hne1, fsLookup_erase_ne _ _ _ hne2, hmid]
            refine fsLookup_foldl_mem _ _ _ (by simp [hpc]) ?_
            simpa [List.nodup_append, hrf] using hnodup
          · rw [fsLookup_write_ne _ _ _ _ (fun hc => hbr hc.symm),
                fsLookup_erase_ne _ _ _ (Ne.symm hlr), hmid]
            refine fsLookup_foldl_mem _ _ (readmePath, readmeDoc) (by simp) ?_
            simpa [List.nodup_append, hrf] using hnodup
          · rw [fsLookup_write_ne _ _ _ _ (fun hc => hbl hc.symm),
                fsLookup_erase_self]
          · rw [fsLookup_write_self]
        · intro hcon
          cases hcon

/-- Witness for `migrate_plan_effects`: a concrete successful migration
(one feature document, the index, and the legacy rename), all hypotheses
discharged at concrete paths. -/
theorem migrate_plan_effects_witness :
    fsLookup "PLAN.md"
        (migratePlan [] "PLAN.md" "PLAN.md.backup" [("impl/auth.md", "docA")]
          "impl/README.md" "docR" ⟨[("PLAN.md", "legacy")]⟩).1 = none := by
  have h := (migrate_plan_effects [] "PLAN.md" "PLAN.md.backup"
    [("impl/auth.md", "docA")] "impl/README.md" "docR" ⟨[("PLAN.md", "legacy")]⟩
    (by decide) (by decide) (by decide) (by decide) (by decide) (by decide)
    (by decide)).1 (by decide)
  exact h.2.2.1

end Fresher
